import Mathlib

/-!
# Verification of the twitter-indexing demo (src/assignment-1.js)

Shallow embedding of the inverted-index builder and query engine from
`src/assignment-1.js`.  Strings are modelled as `List Char` (the text side) so
that the character-level preprocessing regex can be embedded faithfully;
external document ids stay `String`.

JavaScript semantics that the embedding relies on, with justification:

* `text.replace(/\[NEWLINE\]|\[TAB\]|[^\d\w#]/g, " ")` — a global regex
  replace scans left to right; at each position the ordered alternation first
  tries the literal marker `[NEWLINE]`, then `[TAB]`, then the single-character
  class `[^\d\w#]`.  `\w` is `[A-Za-z0-9_]` and `\d ⊆ \w`, so the class keeps
  exactly ASCII alphanumerics, the underscore and the hash sign.
* `text.split(" ")` splits at every single space, producing empty pieces
  between consecutive spaces; the `.filter((el) => el)` drops them.
* `token.replace(/#/, "")` (no `g` flag) deletes only the first `#`.
* `Array.prototype.sort(cmp)`: elements that are `undefined` are moved to the
  end without calling the comparator; a comparator result of `NaN` is treated
  as `+0`; since ES2019 the sort is stable.  The heads stored in `allItems`
  are `PostingsListItem`s, which have no `size` property, so
  `(a, b) => a.size - b.size` always evaluates to `NaN` and the sort leaves
  the defined heads in their original relative order.
* `arr.shift()` on an empty array yields `undefined`.

A singly linked `PostingsListItem` chain is modelled as a `List Nat`
(`undefined` tail ↦ `[]`, `new PostingsListItem(id, rest)` ↦ `id :: rest`);
a nullable pointer to a chain is `Option (List Nat)` where needed (sorting),
and `[]` plays the role of the null pointer inside the merge loop.
-/

namespace TwitterIndex

/-- A term / token, i.e. a JS string viewed as its character list. -/
abbrev Token := List Char

/-! ## Text Normalizer (`preprocess`, `tokenize`, `normalize`, `collectTypes`) -/

/-- Characters kept by the character class `[^\d\w#]` of `preprocess`:
ASCII digits and letters (`\d\w` without the underscore), the underscore
(also part of `\w`), and `#`. -/
def keptChar (c : Char) : Bool :=
  c.isAlphanum || c = '_' || c = '#'

/-- `preprocess` from the source: global replacement of
`/\[NEWLINE\]|\[TAB\]|[^\d\w#]/` by a single space.  The two literal markers
are tried first (in order) at every position; otherwise a single character is
kept or replaced according to `keptChar`. -/
def preprocessL : List Char → List Char
  | '[' :: 'N' :: 'E' :: 'W' :: 'L' :: 'I' :: 'N' :: 'E' :: ']' :: rest =>
      ' ' :: preprocessL rest
  | '[' :: 'T' :: 'A' :: 'B' :: ']' :: rest =>
      ' ' :: preprocessL rest
  | c :: rest => (if keptChar c then c else ' ') :: preprocessL rest
  | [] => []

/-- Helper for `tokenize`: JS `text.split(" ")`, which cuts at every single
space and keeps empty pieces.  `cur` is the (reversed) piece being built. -/
def splitSpaces : List Char → List Char → List Token
  | [], cur => [cur.reverse]
  | ' ' :: rest, cur => cur.reverse :: splitSpaces rest []
  | c :: rest, cur => splitSpaces rest (c :: cur)

/-- `tokenize` from the source: split on `' '` and drop empty tokens. -/
def tokenize (text : List Char) : List Token :=
  (splitSpaces text []).filter (· ≠ [])

/-- `normalize` from the source: lowercase every token. -/
def normalize (tokens : List Token) : List Token :=
  tokens.map (fun token => token.map Char.toLower)

/-- `token.startsWith("#")`. -/
def startsWithHash : Token → Bool
  | [] => false
  | c :: _ => c = '#'

/-- `token.replace(/#/, "")`: remove the first occurrence of `#` (no `g`
flag, so only the first). -/
def removeFirstHash : Token → Token
  | [] => []
  | c :: cs => if c = '#' then cs else c :: removeFirstHash cs

/-- One step of the `reduce` inside `collectTypes`. -/
def collectStep (types : List Token) (token : Token) : List Token :=
  if token ∈ types then types
  else if startsWithHash token then
    let tokenWithoutHashtag := removeFirstHash token
    if tokenWithoutHashtag ∈ types then types ++ [token]
    else types ++ [token, tokenWithoutHashtag]
  else types ++ [token]

/-- `collectTypes` from the source: `tokens.reduce(collectStep, [])`. -/
def collectTypes (tokens : List Token) : List Token :=
  tokens.foldl collectStep []

/-- Transcription of the *spec's* description of Collect Types, for comparison
with the source's `collectTypes`: walk the token sequence keeping the
so-far-collected set `seen` in first-seen order; drop a token already
present; for a token starting with `#`, also emit the token with the leading
`#` stripped unless that stripped form is already in `seen`; add any other
token as-is. -/
def collectTypesSpec (seen : List Token) : List Token → List Token
  | [] => seen
  | t :: ts =>
    if t ∈ seen then collectTypesSpec seen ts
    else if startsWithHash t then
      if t.drop 1 ∈ seen then collectTypesSpec (seen ++ [t]) ts
      else collectTypesSpec (seen ++ [t, t.drop 1]) ts
    else collectTypesSpec (seen ++ [t]) ts

/-! ## Indexer (`index`) -/

/-- One dictionary entry: `{ term, size, postingsList }`.  The postings list
is the linked chain read head-first. -/
structure DictItem where
  term : Token
  size : Nat
  postingsList : List Nat
deriving Repr, DecidableEq

/-- The JS `Map` keyed by term, as an insertion-ordered association list
(`Map.get` = first match, `Map.set` = replace in place or append). -/
abbrev Dict := List (Token × DictItem)

def dictGet : Dict → Token → Option DictItem
  | [], _ => none
  | (k, v) :: d, t => if k = t then some v else dictGet d t

def dictSet : Dict → Token → DictItem → Dict
  | [], t, v => [(t, v)]
  | (k, w) :: d, t, v => if k = t then (t, v) :: d else (k, w) :: dictSet d t v

/-- The sparse `ids` array (`ids[lineNumber] = id`), as the list of written
(index, externalId) cells in writing order. -/
abbrev IdsMap := List (Nat × String)

def idsLookup : IdsMap → Nat → Option String
  | [], _ => none
  | (k, v) :: l, i => if k = i then some v else idsLookup l i

/-- One record of the document source: the external id (first TSV field) and
the `tweetText` field, `none` when the field is missing from the line. -/
structure Record where
  externalId : String
  text : Option (List Char)
deriving Repr, DecidableEq

/-- The mutable state of the `index` loop. -/
structure IndexState where
  dict : Dict
  ids : IdsMap
  lineNumber : Nat
deriving Repr, DecidableEq

/-- The `types.forEach` body: create or update the dictionary entry of one
type with the current line number. -/
def updateDict (d : Dict) (ty : Token) (n : Nat) : Dict :=
  match dictGet d ty with
  | some it => dictSet d ty { it with size := it.size + 1, postingsList := n :: it.postingsList }
  | none => dictSet d ty { term := ty, size := 1, postingsList := [n] }

/-- The body of the `for await` loop of `index` for one record: skip on a
missing/empty tweet (counter still advanced), otherwise run the normalizer
pipeline, update the dictionary for every type, and write the ids cell. -/
def indexStep (st : IndexState) (r : Record) : IndexState :=
  match r.text with
  | none => { st with lineNumber := st.lineNumber + 1 }
  | some t =>
    if t = [] then { st with lineNumber := st.lineNumber + 1 }
    else
      let preprocessed := preprocessL t
      if preprocessed = [] then { st with lineNumber := st.lineNumber + 1 }
      else
        let types := collectTypes (normalize (tokenize preprocessed))
        { dict := types.foldl (fun d ty => updateDict d ty st.lineNumber) st.dict,
          ids := st.ids ++ [(st.lineNumber, r.externalId)],
          lineNumber := st.lineNumber + 1 }

/-- `index` over a finite record source, from the empty initial state. -/
def indexRecords (recs : List Record) : IndexState :=
  recs.foldl indexStep { dict := [], ids := [], lineNumber := 0 }

/-! ## Query Engine (`query`) -/

/-- `allItems.sort((a, b) => a.size - b.size)` as it actually behaves:
`undefined` heads move to the end without the comparator being called; for
two `PostingsListItem` heads the comparator reads the missing `size`
property, yields `NaN`, which `SortCompare` turns into `+0`, and the stable
sort keeps the defined heads in their original order. -/
def sortBySizeJS (l : List (Option (List Nat))) : List (Option (List Nat)) :=
  l.filter (·.isSome) ++ l.filter (·.isNone)

/-- `arr.shift()` plus the coercion of a missing/`undefined` pointer to the
null pointer `[]`: returns the first head (or `[]`) and the rest. -/
def shiftPtr : List (Option (List Nat)) → List Nat × List (Option (List Nat))
  | [] => ([], [])
  | x :: xs => (x.getD [], xs)

/-- The inner `while (itemA && itemB)` two-pointer merge: equal ids are
appended to the result chain, otherwise the pointer with the larger id
advances (the loop exits when either pointer is exhausted).  The consecutive
advance-B iterations (`itemA.documentId < itemB.documentId`) are grouped into
one `dropWhile`, which makes the function structurally recursive on the A
pointer without changing any step of the loop. -/
def mergeTwo : List Nat → List Nat → List Nat
  | [], _ => []
  | a :: as, ys =>
    match ys.dropWhile (fun b => a < b) with
    | [] => []
    | b :: bs => if a = b then a :: mergeTwo as bs else mergeTwo as (b :: bs)

/-- The outer `do … while` of the multi-term path: merge the two current
pointers, then continue with the merge result and the next shifted head; the
loop `break`s (returning the last merge result) as soon as the merge result
is empty or the shifted head is `undefined`/absent. -/
def queryLoop : List Nat → List Nat → List (Option (List Nat)) → List Nat
  | a, b, rest =>
    let r := mergeTwo a b
    match rest with
    | [] => r
    | x :: rest2 =>
      let b2 := x.getD []
      if r ≠ [] ∧ b2 ≠ [] then queryLoop r b2 rest2 else r

/-- The multi-term path of `query` after the heads have been fetched and
sorted: two `shift`s, then the merge loop. -/
def queryMulti (sorted : List (Option (List Nat))) : List Nat :=
  let s1 := shiftPtr sorted
  let s2 := shiftPtr s1.2
  queryLoop s1.1 s2.1 s2.2

/-- `query(dictionary, idsMap, ...terms)` from the source.  The result is the
list of `idsMap[documentId]` values (`Option String`, since a hole in the
sparse array would read as `undefined`). -/
def query (dictionary : Dict) (idsMap : IdsMap) (terms : List Token) :
    List (Option String) :=
  if terms.length = 1 then
    let listStart := (dictGet dictionary (terms.headD [])).map (·.postingsList)
    (listStart.getD []).map (idsLookup idsMap)
  else
    let allItems := terms.map (fun term => (dictGet dictionary term).map (·.postingsList))
    (queryMulti (sortBySizeJS allItems)).map (idsLookup idsMap)

/-! ## Invariants -/

/-- The structural invariant of one dictionary entry when the line counter
stands at `n`: the postings list is non-empty, strictly descending, contains
only already-assigned internal ids, and the stored `size` is its length. -/
def EntryOK (n : Nat) (e : DictItem) : Prop :=
  e.postingsList ≠ []
    ∧ List.Sorted (· > ·) e.postingsList
    ∧ (∀ x ∈ e.postingsList, x < n)
    ∧ e.size = e.postingsList.length

/-- The indexer invariant, holding between any two records: every dictionary
entry is well-formed for the current counter, and every written ids cell has
an index below the counter. -/
def Inv (st : IndexState) : Prop :=
  (∀ p ∈ st.dict, EntryOK st.lineNumber p.2) ∧ ∀ q ∈ st.ids, q.1 < st.lineNumber

/-- A record the `index` loop skips: the tweet field is missing or empty, or
(vacuously, given `preprocessL` maps characters one-to-one) empty after
preprocessing. -/
def Skipped (r : Record) : Prop :=
  r.text = none ∨ ∃ t, r.text = some t ∧ (t = [] ∨ preprocessL t = [])

/-- The internal id `i` is nowhere in the state: below the counter, absent
from every postings list, and without an ids cell. -/
def StateAvoids (i : Nat) (st : IndexState) : Prop :=
  i < st.lineNumber
    ∧ (∀ p ∈ st.dict, i ∉ p.2.postingsList)
    ∧ idsLookup st.ids i = none

/-! ## Basic lemmas about the normalizer -/

/-- On a token that starts with `#`, `token.replace(/#/, "")` removes exactly
the leading `#`. -/
theorem removeFirstHash_of_startsWithHash (t : Token) (h : startsWithHash t = true) :
    removeFirstHash t = t.drop 1 := by
  cases t with
  | nil => simp [startsWithHash] at h
  | cons c cs =>
    simp only [startsWithHash, decide_eq_true_eq] at h
    simp [removeFirstHash, h]

theorem foldl_collectStep_eq_spec (ts : List Token) :
    ∀ seen, List.foldl collectStep seen ts = collectTypesSpec seen ts := by
  induction ts with
  | nil => intro seen; rfl
  | cons t ts ih =>
    intro seen
    rw [List.foldl_cons, ih]
    show collectTypesSpec (collectStep seen t) ts = collectTypesSpec seen (t :: ts)
    rw [collectTypesSpec.eq_2]
    unfold collectStep
    by_cases h1 : t ∈ seen
    · simp [h1]
    · by_cases h2 : startsWithHash t
      · rw [removeFirstHash_of_startsWithHash t h2]
        by_cases h3 : t.tail ∈ seen <;> simp [h1, h2, h3, List.drop_one]
      · simp [h1, h2]

/-! ## Claim theorems (concrete and normalizer-level) -/

/-- **C6**: `collectTypes` implements exactly the spec's Collect Types rule
(deduplicate preserving first-seen order, hashtag tokens additionally emit
their `#`-stripped form unless already collected), and on the two documented
examples: a document `#covid` yields the types `#covid` and `covid`, and a
document `covid #covid` yields only `covid` and `#covid`, with no duplicate. -/
theorem claim_C6 :
    (∀ tokens : List Token, collectTypes tokens = collectTypesSpec [] tokens)
    ∧ collectTypes (normalize (tokenize (preprocessL "#covid".data)))
        = ["#covid".data, "covid".data]
    ∧ collectTypes (normalize (tokenize (preprocessL "covid #covid".data)))
        = ["covid".data, "#covid".data] :=
  ⟨fun tokens => foldl_collectStep_eq_spec tokens [], by decide, by decide⟩

/-- **C7 (refuted — code bug)**: `preprocess` keeps the underscore unchanged,
although `_` is neither a digit, nor a letter, nor `#`.  The regex class
`[^\d\w#]` exempts all of `\w = [A-Za-z0-9_]`, so the underscore survives,
contradicting the claim (and the function's own doc comment), which demand
that every non-digit non-letter character other than `#` become a space. -/
theorem claim_C7 :
    preprocessL ['_'] = ['_']
    ∧ ¬('_'.isDigit = true ∨ '_'.isAlpha = true ∨ '_' = '#') := by
  decide

/-- **C9**: a standalone `#` token survives `tokenize`, Collect Types expands
it to the empty string, and indexing a document containing a standalone `#`
creates a dictionary entry whose term is the empty string. -/
theorem claim_C9 :
    tokenize "hi #".data = ["hi".data, ['#']]
    ∧ collectTypes (normalize (tokenize "hi #".data)) = ["hi".data, ['#'], []]
    ∧ dictGet (indexRecords [⟨"t1", some "hi #".data⟩]).dict []
        = some { term := [], size := 1, postingsList := [0] } := by
  decide

/-- **C10**: hashtag expansion strips only the first `#` of a token: on any
token `#…`, `token.replace(/#/, "")` returns the tail, and `##x` expands to
the types `##x` and `#x` — never to `x`. -/
theorem claim_C10 :
    (∀ rest : Token, removeFirstHash ('#' :: rest) = rest)
    ∧ collectTypes ["##x".data] = ["##x".data, "#x".data]
    ∧ "x".data ∉ collectTypes ["##x".data] :=
  ⟨fun rest => by simp [removeFirstHash], by decide, by decide⟩

/-- **C1 (refuted — code bug)**: a query of three terms where `zzz` is absent
from the dictionary returns a *non-empty* result.  After the no-op sort
places the `undefined` head of `zzz` last, the merge loop intersects the two
present lists and then `break`s upon shifting the `undefined` head, returning
the last merge result instead of the empty intersection. -/
theorem claim_C1 :
    dictGet (indexRecords [⟨"t1", some "a b".data⟩]).dict "zzz".data = none
    ∧ query (indexRecords [⟨"t1", some "a b".data⟩]).dict
        (indexRecords [⟨"t1", some "a b".data⟩]).ids
        ["a".data, "b".data, "zzz".data] = [some "t1"] := by
  decide

/-- **C2 (refuted — code bug)**: the multi-term result is not the
set-intersection of the single-term results.  With `q` absent from the
dictionary, the single-term result for `q` is empty (so the intersection of
the three single-term result sets is empty), yet the three-term query
returns both documents. -/
theorem claim_C2 :
    query (indexRecords [⟨"d1", some "x y".data⟩, ⟨"d2", some "x y".data⟩]).dict
        (indexRecords [⟨"d1", some "x y".data⟩, ⟨"d2", some "x y".data⟩]).ids
        ["x".data, "y".data, "q".data] = [some "d2", some "d1"]
    ∧ query (indexRecords [⟨"d1", some "x y".data⟩, ⟨"d2", some "x y".data⟩]).dict
        (indexRecords [⟨"d1", some "x y".data⟩, ⟨"d2", some "x y".data⟩]).ids
        ["q".data] = [] := by
  decide

/-- **C4 (refuted — code bug)**: the fetched heads are *not* reordered
ascending by document frequency.  After indexing `"a b"` then `"a"`, the
term `a` has frequency 2 and `b` frequency 1, yet for the query
`(a, b)` the sort leaves the frequency-2 head `[1, 0]` first: the comparator
reads the non-existent `size` property of the `PostingsListItem` heads, so
every comparison is `NaN` (treated as `+0`) and the stable sort changes
nothing. -/
theorem claim_C4 :
    dictGet (indexRecords [⟨"t1", some "a b".data⟩, ⟨"t2", some "a".data⟩]).dict
        "a".data = some { term := "a".data, size := 2, postingsList := [1, 0] }
    ∧ dictGet (indexRecords [⟨"t1", some "a b".data⟩, ⟨"t2", some "a".data⟩]).dict
        "b".data = some { term := "b".data, size := 1, postingsList := [0] }
    ∧ sortBySizeJS (["a".data, "b".data].map (fun t =>
        (dictGet (indexRecords [⟨"t1", some "a b".data⟩, ⟨"t2", some "a".data⟩]).dict
          t).map (·.postingsList)))
        = [some [1, 0], some [0]] := by
  decide

/-! ## Dictionary / ids-map lemmas -/

theorem mem_dictSet : ∀ (d : Dict) (k : Token) (v : DictItem) (p : Token × DictItem),
    p ∈ dictSet d k v → p = (k, v) ∨ p ∈ d := by
  intro d k v
  induction d with
  | nil => intro p hp; exact Or.inl (by simpa [dictSet] using hp)
  | cons q d ih =>
    intro p hp
    obtain ⟨k2, w⟩ := q
    rw [dictSet] at hp
    by_cases hk : k2 = k
    · rw [if_pos hk] at hp
      rcases List.mem_cons.mp hp with h | h
      · exact Or.inl h
      · exact Or.inr (List.mem_cons_of_mem _ h)
    · rw [if_neg hk] at hp
      rcases List.mem_cons.mp hp with h | h
      · exact Or.inr (h ▸ List.mem_cons_self _ _)
      · rcases ih p h with h2 | h2
        · exact Or.inl h2
        · exact Or.inr (List.mem_cons_of_mem _ h2)

theorem dictGet_mem : ∀ {d : Dict} {k : Token} {v : DictItem},
    dictGet d k = some v → (k, v) ∈ d := by
  intro d
  induction d with
  | nil => intro k v h; simp [dictGet] at h
  | cons q d ih =>
    intro k v h
    obtain ⟨k2, w⟩ := q
    rw [dictGet] at h
    by_cases hk : k2 = k
    · rw [if_pos hk] at h
      obtain rfl : w = v := by injection h
      exact hk ▸ List.mem_cons_self _ _
    · rw [if_neg hk] at h
      exact List.mem_cons_of_mem _ (ih h)

theorem idsLookup_eq_none : ∀ {l : IdsMap} {i : Nat}, (∀ q ∈ l, q.1 ≠ i) →
    idsLookup l i = none := by
  intro l
  induction l with
  | nil => intro i _; rfl
  | cons q l ih =>
    intro i h
    obtain ⟨k, v⟩ := q
    rw [idsLookup, if_neg (h (k, v) (List.mem_cons_self _ _))]
    exact ih fun q hq => h q (List.mem_cons_of_mem _ hq)

theorem idsLookup_append_none : ∀ {l : IdsMap} (l2 : IdsMap) {i : Nat},
    idsLookup l i = none → idsLookup (l ++ l2) i = idsLookup l2 i := by
  intro l
  induction l with
  | nil => intro l2 i _; rfl
  | cons q l ih =>
    intro l2 i h
    obtain ⟨k, v⟩ := q
    rw [idsLookup] at h
    rw [List.cons_append, idsLookup]
    by_cases hk : k = i
    · rw [if_pos hk] at h; exact absurd h (by simp)
    · rw [if_neg hk] at h ⊢
      exact ih l2 h

theorem mem_updateDict {d : Dict} {ty : Token} {n : Nat} {p : Token × DictItem}
    (h : p ∈ updateDict d ty n) :
    p ∈ d
    ∨ (∃ it, dictGet d ty = some it
        ∧ p = (ty, { it with size := it.size + 1, postingsList := n :: it.postingsList }))
    ∨ (dictGet d ty = none ∧ p = (ty, { term := ty, size := 1, postingsList := [n] })) := by
  unfold updateDict at h
  cases hget : dictGet d ty with
  | some it =>
    rw [hget] at h
    rcases mem_dictSet _ _ _ _ h with h | h
    · exact Or.inr (Or.inl ⟨it, rfl, h⟩)
    · exact Or.inl h
  | none =>
    rw [hget] at h
    rcases mem_dictSet _ _ _ _ h with h | h
    · exact Or.inr (Or.inr ⟨rfl, h⟩)
    · exact Or.inl h

/-! ## `collectTypes` produces no duplicates -/

theorem removeFirstHash_ne (t : Token) (h : startsWithHash t = true) :
    removeFirstHash t ≠ t := by
  rw [removeFirstHash_of_startsWithHash t h]
  cases t with
  | nil => simp [startsWithHash] at h
  | cons c cs => exact fun he => List.cons_ne_self c cs ((List.drop_one _).symm ▸ he).symm

theorem nodup_foldl_collectStep : ∀ (ts : List Token) (acc : List Token),
    acc.Nodup → (List.foldl collectStep acc ts).Nodup := by
  intro ts
  induction ts with
  | nil => intro acc h; exact h
  | cons t ts ih =>
    intro acc h
    rw [List.foldl_cons]
    apply ih
    unfold collectStep
    by_cases h1 : t ∈ acc
    · simpa [h1] using h
    · by_cases h2 : startsWithHash t
      · by_cases h3 : removeFirstHash t ∈ acc
        · simp only [h1, h2, h3, if_true, if_false, if_neg h1]
          simp [List.nodup_append, List.disjoint_left, h, h1]
        · simp only [h1, h2, h3, if_true, if_false, if_neg h1]
          simp only [List.nodup_append, List.disjoint_left]
          refine ⟨h, by simp [(removeFirstHash_ne t h2).symm], ?_⟩
          intro a ha
          simp only [List.mem_cons, List.mem_singleton, List.not_mem_nil, or_false]
          push_neg
          exact ⟨fun he => h1 (he ▸ ha), fun he => h3 (he ▸ ha)⟩
      · simp only [h1, h2, if_false, if_neg h1]
        simp [List.nodup_append, List.disjoint_left, h, h1]

theorem collectTypes_nodup (ts : List Token) : (collectTypes ts).Nodup :=
  nodup_foldl_collectStep ts [] (by simp)

/-! ## Indexer invariant -/

theorem entryOK_mono {m n : Nat} (h : m ≤ n) {e : DictItem} (he : EntryOK m e) :
    EntryOK n e :=
  ⟨he.1, he.2.1, fun x hx => lt_of_lt_of_le (he.2.2.1 x hx) h, he.2.2.2⟩

theorem foldl_updateDict_entryOK (n : Nat) :
    ∀ (ts : List Token) (d : Dict), ts.Nodup →
      (∀ p ∈ d, EntryOK (n + 1) p.2) →
      (∀ p ∈ d, p.1 ∈ ts → EntryOK n p.2) →
      ∀ p ∈ ts.foldl (fun d ty => updateDict d ty n) d, EntryOK (n + 1) p.2 := by
  intro ts
  induction ts with
  | nil => intro d _ h2 _ p hp; exact h2 p hp
  | cons ty ts ih =>
    intro d hnd h2 h3 p hp
    rw [List.foldl_cons] at hp
    refine ih (updateDict d ty n) (List.nodup_cons.mp hnd).2 ?_ ?_ p hp
    · intro q hq
      rcases mem_updateDict hq with hq | ⟨it, hget, rfl⟩ | ⟨hget, rfl⟩
      · exact h2 q hq
      · have hOK : EntryOK n it :=
          h3 (ty, it) (dictGet_mem hget) (List.mem_cons_self _ _)
        refine ⟨by simp, ?_, ?_, ?_⟩
        · exact List.sorted_cons.mpr ⟨fun b hb => hOK.2.2.1 b hb, hOK.2.1⟩
        · intro x hx
          rcases List.mem_cons.mp hx with rfl | hx
          · exact Nat.lt_succ_self _
          · exact Nat.lt_succ_of_lt (hOK.2.2.1 x hx)
        · simp [hOK.2.2.2]
      · exact ⟨by simp, by simp, by simp, by simp⟩
    · intro q hq hqts
      rcases mem_updateDict hq with hq | ⟨it, hget, rfl⟩ | ⟨hget, rfl⟩
      · exact h3 q hq (List.mem_cons_of_mem _ hqts)
      · exact absurd hqts (List.nodup_cons.mp hnd).1
      · exact absurd hqts (List.nodup_cons.mp hnd).1

theorem lineNumber_indexStep (st : IndexState) (r : Record) :
    (indexStep st r).lineNumber = st.lineNumber + 1 := by
  unfold indexStep
  cases r.text with
  | none => rfl
  | some t => dsimp only; split_ifs <;> rfl

theorem inv_indexStep {st : IndexState} (h : Inv st) (r : Record) :
    Inv (indexStep st r) := by
  obtain ⟨hd, hi⟩ := h
  unfold indexStep
  cases r.text with
  | none =>
    exact ⟨fun p hp => entryOK_mono (Nat.le_succ _) (hd p hp),
      fun q hq => Nat.lt_succ_of_lt (hi q hq)⟩
  | some t =>
    dsimp only
    split_ifs with h1 h2
    · exact ⟨fun p hp => entryOK_mono (Nat.le_succ _) (hd p hp),
        fun q hq => Nat.lt_succ_of_lt (hi q hq)⟩
    · exact ⟨fun p hp => entryOK_mono (Nat.le_succ _) (hd p hp),
        fun q hq => Nat.lt_succ_of_lt (hi q hq)⟩
    · constructor
      · intro p hp
        exact foldl_updateDict_entryOK st.lineNumber _ st.dict
          (collectTypes_nodup _)
          (fun p hp => entryOK_mono (Nat.le_succ _) (hd p hp))
          (fun p hp _ => hd p hp) p hp
      · intro q hq
        rcases List.mem_append.mp hq with hq | hq
        · exact Nat.lt_succ_of_lt (hi q hq)
        · simp only [List.mem_singleton] at hq
          rw [hq]
          exact Nat.lt_succ_self _

theorem inv_foldl : ∀ (recs : List Record) (st : IndexState),
    Inv st → Inv (recs.foldl indexStep st) := by
  intro recs
  induction recs with
  | nil => intro st h; exact h
  | cons r recs ih =>
    intro st h
    rw [List.foldl_cons]
    exact ih _ (inv_indexStep h r)

theorem inv_indexRecords (recs : List Record) : Inv (indexRecords recs) :=
  inv_foldl recs _ ⟨by simp, by simp⟩

theorem lineNumber_foldl : ∀ (recs : List Record) (st : IndexState),
    (recs.foldl indexStep st).lineNumber = st.lineNumber + recs.length := by
  intro recs
  induction recs with
  | nil => intro st; rfl
  | cons r recs ih =>
    intro st
    rw [List.foldl_cons, ih, lineNumber_indexStep, List.length_cons]
    omega

theorem lineNumber_indexRecords (recs : List Record) :
    (indexRecords recs).lineNumber = recs.length := by
  unfold indexRecords
  rw [lineNumber_foldl]
  simp

/-! ## Claim theorems (invariants and frame conditions) -/

/-- **C3**: after any run of the indexer (hence after every indexed record —
every prefix of the record stream is itself a run), every postings list in
the dictionary is non-empty, strictly descending in internal id, and free of
duplicates. -/
theorem claim_C3 : ∀ recs : List Record, ∀ p ∈ (indexRecords recs).dict,
    p.2.postingsList ≠ []
      ∧ List.Sorted (· > ·) p.2.postingsList
      ∧ p.2.postingsList.Nodup := by
  intro recs p hp
  have h := (inv_indexRecords recs).1 p hp
  exact ⟨h.1, h.2.1, h.2.1.imp fun hab => ne_of_gt hab⟩

theorem claim_C3_witness :
    ("a".data, ({ term := "a".data, size := 1, postingsList := [0] } : DictItem))
        ∈ (indexRecords [⟨"t1", some "a".data⟩]).dict
    ∧ (({ term := "a".data, size := 1, postingsList := [0] } : DictItem).postingsList ≠ []
        ∧ List.Sorted (· > ·)
            ({ term := "a".data, size := 1, postingsList := [0] } : DictItem).postingsList
        ∧ ({ term := "a".data, size := 1, postingsList := [0] } : DictItem).postingsList.Nodup) :=
  ⟨by decide,
    claim_C3 [⟨"t1", some "a".data⟩]
      ("a".data, { term := "a".data, size := 1, postingsList := [0] }) (by decide)⟩

theorem query_single (d : Dict) (i : IdsMap) (t : Token) :
    query d i [t] = (((dictGet d t).map (·.postingsList)).getD []).map (idsLookup i) := by
  simp [query]

/-- **C5**: a single-term query for a term present in the dictionary returns
exactly the term's postings ids (a strictly descending sequence) mapped
through the ID-Resolution Table, with length equal to the stored document
frequency; for an absent term it returns the empty sequence. -/
theorem claim_C5 : ∀ (recs : List Record) (t : Token),
    (∀ e : DictItem, dictGet (indexRecords recs).dict t = some e →
        query (indexRecords recs).dict (indexRecords recs).ids [t]
            = e.postingsList.map (idsLookup (indexRecords recs).ids)
          ∧ (query (indexRecords recs).dict (indexRecords recs).ids [t]).length = e.size
          ∧ List.Sorted (· > ·) e.postingsList)
    ∧ (dictGet (indexRecords recs).dict t = none →
        query (indexRecords recs).dict (indexRecords recs).ids [t] = []) := by
  intro recs t
  constructor
  · intro e hget
    have hOK : EntryOK (indexRecords recs).lineNumber e :=
      (inv_indexRecords recs).1 (t, e) (dictGet_mem hget)
    rw [query_single, hget]
    refine ⟨rfl, ?_, hOK.2.1⟩
    simp [hOK.2.2.2]
  · intro hget
    rw [query_single, hget]
    rfl

theorem claim_C5_witness :
    dictGet (indexRecords [⟨"t1", some "a".data⟩]).dict "a".data
        = some { term := "a".data, size := 1, postingsList := [0] }
    ∧ (query (indexRecords [⟨"t1", some "a".data⟩]).dict
          (indexRecords [⟨"t1", some "a".data⟩]).ids ["a".data]
          = ({ term := "a".data, size := 1, postingsList := [0] } : DictItem).postingsList.map
              (idsLookup (indexRecords [⟨"t1", some "a".data⟩]).ids)
        ∧ (query (indexRecords [⟨"t1", some "a".data⟩]).dict
            (indexRecords [⟨"t1", some "a".data⟩]).ids ["a".data]).length
            = ({ term := "a".data, size := 1, postingsList := [0] } : DictItem).size
        ∧ List.Sorted (· > ·)
            ({ term := "a".data, size := 1, postingsList := [0] } : DictItem).postingsList) :=
  ⟨by decide, (claim_C5 [⟨"t1", some "a".data⟩] "a".data).1 _ (by decide)⟩

theorem indexStep_skipped {st : IndexState} {r : Record} (h : Skipped r) :
    indexStep st r = { st with lineNumber := st.lineNumber + 1 } := by
  rcases h with h | ⟨t, ht, h⟩
  · unfold indexStep; rw [h]
  · unfold indexStep
    rw [ht]
    rcases h with h | h
    · simp [h]
    · by_cases h1 : t = []
      · simp [h1]
      · simp [h1, h]

theorem foldl_updateDict_mem_postings (n : Nat) :
    ∀ (ts : List Token) (d : Dict) (p : Token × DictItem),
      p ∈ ts.foldl (fun d ty => updateDict d ty n) d →
      ∀ x ∈ p.2.postingsList, x = n ∨ ∃ q ∈ d, x ∈ q.2.postingsList := by
  intro ts
  induction ts with
  | nil => intro d p hp x hx; exact Or.inr ⟨p, hp, hx⟩
  | cons ty ts ih =>
    intro d p hp x hx
    rw [List.foldl_cons] at hp
    rcases ih (updateDict d ty n) p hp x hx with h | ⟨q, hq, hxq⟩
    · exact Or.inl h
    · rcases mem_updateDict hq with hq | ⟨it, hget, rfl⟩ | ⟨hget, rfl⟩
      · exact Or.inr ⟨q, hq, hxq⟩
      · rcases List.mem_cons.mp hxq with h | h
        · exact Or.inl h
        · exact Or.inr ⟨(ty, it), dictGet_mem hget, h⟩
      · simp only [List.mem_singleton] at hxq
        exact Or.inl hxq

theorem avoids_indexStep {i : Nat} {st : IndexState} (h : StateAvoids i st)
    (r : Record) : StateAvoids i (indexStep st r) := by
  obtain ⟨h1, h2, h3⟩ := h
  unfold indexStep
  cases r.text with
  | none => exact ⟨Nat.lt_succ_of_lt h1, h2, h3⟩
  | some t =>
    dsimp only
    split_ifs with hc1 hc2
    · exact ⟨Nat.lt_succ_of_lt h1, h2, h3⟩
    · exact ⟨Nat.lt_succ_of_lt h1, h2, h3⟩
    · refine ⟨Nat.lt_succ_of_lt h1, ?_, ?_⟩
      · intro p hp hx
        rcases foldl_updateDict_mem_postings st.lineNumber _ st.dict p hp i hx with
          rfl | ⟨q, hq, hxq⟩
        · exact lt_irrefl _ h1
        · exact h2 q hq hxq
      · rw [idsLookup_append_none _ h3, idsLookup]
        rw [if_neg (by omega)]
        rfl

theorem avoids_foldl : ∀ (recs : List Record) {i : Nat} {st : IndexState},
    StateAvoids i st → StateAvoids i (recs.foldl indexStep st) := by
  intro recs
  induction recs with
  | nil => intro i st h; exact h
  | cons r recs ih =>
    intro i st h
    rw [List.foldl_cons]
    exact ih (avoids_indexStep h r)

/-- **C8**: on a record whose tweet text is missing or empty (or empty after
preprocessing) the indexer only advances the counter — dictionary and
ID-Resolution Table untouched — and that internal id has no ids cell and
never appears in any postings list of the final index. -/
theorem claim_C8 : ∀ (recs1 : List Record) (r : Record) (recs2 : List Record),
    Skipped r →
    indexStep (indexRecords recs1) r
        = { indexRecords recs1 with lineNumber := (indexRecords recs1).lineNumber + 1 }
      ∧ idsLookup (indexRecords (recs1 ++ r :: recs2)).ids recs1.length = none
      ∧ ∀ p ∈ (indexRecords (recs1 ++ r :: recs2)).dict,
          recs1.length ∉ p.2.postingsList := by
  intro recs1 r recs2 hskip
  have hstep := @indexStep_skipped (indexRecords recs1) r hskip
  have hline := lineNumber_indexRecords recs1
  have hinv := inv_indexRecords recs1
  have havoid : StateAvoids recs1.length (indexStep (indexRecords recs1) r) := by
    rw [hstep]
    refine ⟨?_, ?_, ?_⟩
    · show recs1.length < (indexRecords recs1).lineNumber + 1
      rw [hline]
      omega
    · intro p hp hx
      have := (hinv.1 p hp).2.2.1 _ hx
      omega
    · exact idsLookup_eq_none fun q hq => by
        have := hinv.2 q hq
        omega
  have hsplit : indexRecords (recs1 ++ r :: recs2)
      = recs2.foldl indexStep (indexStep (indexRecords recs1) r) := by
    simp [indexRecords, List.foldl_append]
  have hfinal : StateAvoids recs1.length (indexRecords (recs1 ++ r :: recs2)) := by
    rw [hsplit]
    exact avoids_foldl recs2 havoid
  exact ⟨hstep, hfinal.2.2, hfinal.2.1⟩

theorem claim_C8_witness :
    Skipped ⟨"t0", some []⟩
    ∧ (indexStep (indexRecords []) ⟨"t0", some []⟩
          = { indexRecords [] with lineNumber := (indexRecords []).lineNumber + 1 }
        ∧ idsLookup (indexRecords ([] ++ ⟨"t0", some []⟩ :: [⟨"t1", some "hello world".data⟩])).ids
            (List.length ([] : List Record)) = none
        ∧ ∀ p ∈ (indexRecords ([] ++ ⟨"t0", some []⟩ :: [⟨"t1", some "hello world".data⟩])).dict,
            (List.length ([] : List Record)) ∉ p.2.postingsList) :=
  ⟨Or.inr ⟨[], rfl, Or.inl rfl⟩,
    claim_C8 [] ⟨"t0", some []⟩ [⟨"t1", some "hello world".data⟩]
      (Or.inr ⟨[], rfl, Or.inl rfl⟩)⟩

end TwitterIndex
